import Mathlib

set_option maxRecDepth 1000000

/-!
Verification of the ledger engine in `blockchain_server.py`.

The Python module implements a single-node blockchain: a `Blockchain` class
holding an append-only `chain` of block dictionaries and a `current_data`
buffer of pending entries, SHA-256 hashing of the canonical (sorted-key)
JSON serialization of a block, a fixed-difficulty proof-of-work search, and
a thin Flask route layer.

Modelling conventions of this shallow embedding:
* Python `int` is `Int` (arbitrary precision in both); list indices and
  lengths are `Nat`.
* `time()` returns a wall-clock float that is an external input of each
  block-creating call; it is modelled as an abstract tick (`Nat`) passed to
  the operation and rendered in decimal by the serializer.  No claim below
  depends on the textual rendering of timestamps.
* SHA-256 is implemented in full (FIPS 180-4) over byte lists, so that
  every definition is executable and checked against the standard test
  vectors below.
* Fallible operations (Python code that can raise, e.g. `chain[-1]` on an
  empty list) return `Option`; the unbounded `while` loop of
  `proof_of_work` takes an explicit fuel argument and returns `none` when
  the fuel is exhausted.
-/

/-! ### SHA-256 (hashlib.sha256), executable implementation -/

/-- Truncation to a 32-bit word. -/
def w32 (x : Nat) : Nat := x % 4294967296

/-- Right rotation of a 32-bit word by `n` bits. -/
def rotr (n x : Nat) : Nat := w32 ((x >>> n) ||| (x <<< (32 - n)))

/-- Bitwise complement of a 32-bit word. -/
def not32 (x : Nat) : Nat := 4294967295 ^^^ x

/-- SHA-256 compression function `Σ0`. -/
def bigS0 (x : Nat) : Nat := rotr 2 x ^^^ rotr 13 x ^^^ rotr 22 x

/-- SHA-256 compression function `Σ1`. -/
def bigS1 (x : Nat) : Nat := rotr 6 x ^^^ rotr 11 x ^^^ rotr 25 x

/-- SHA-256 message-schedule function `σ0`. -/
def smlS0 (x : Nat) : Nat := rotr 7 x ^^^ rotr 18 x ^^^ (x >>> 3)

/-- SHA-256 message-schedule function `σ1`. -/
def smlS1 (x : Nat) : Nat := rotr 17 x ^^^ rotr 19 x ^^^ (x >>> 10)

/-- The 64 SHA-256 round constants, written in decimal. -/
def kConsts : List Nat :=
  [1116352408, 1899447441, 3049323471, 3921009573,
   961987163, 1508970993, 2453635748, 2870763221,
   3624381080, 310598401, 607225278, 1426881987,
   1925078388, 2162078206, 2614888103, 3248222580,
   3835390401, 4022224774, 264347078, 604807628,
   770255983, 1249150122, 1555081692, 1996064986,
   2554220882, 2821834349, 2952996808, 3210313671,
   3336571891, 3584528711, 113926993, 338241895,
   666307205, 773529912, 1294757372, 1396182291,
   1695183700, 1986661051, 2177026350, 2456956037,
   2730485921, 2820302411, 3259730800, 3345764771,
   3516065817, 3600352804, 4094571909, 275423344,
   430227734, 506948616, 659060556, 883997877,
   958139571, 1322822218, 1537002063, 1747873779,
   1955562222, 2024104815, 2227730452, 2361852424,
   2428436474, 2756734187, 3204031479, 3329325298]

/-- The SHA-256 initial hash value (eight 32-bit words, in decimal). -/
def hInit : List Nat :=
  [1779033703, 3144134277, 1013904242, 2773480762,
   1359893119, 2600822924, 528734635, 1541459225]

/-- Pad a byte message per FIPS 180-4: append `0x80`, zero bytes up to
56 mod 64, then the bit length as 8 big-endian bytes. -/
def padMsg (msg : List Nat) : List Nat :=
  let L := msg.length
  let z := (119 - L % 64) % 64
  let bl := 8 * L
  msg ++ [0x80] ++ List.replicate z 0 ++
    [(bl >>> 56) &&& 255, (bl >>> 48) &&& 255, (bl >>> 40) &&& 255, (bl >>> 32) &&& 255,
     (bl >>> 24) &&& 255, (bl >>> 16) &&& 255, (bl >>> 8) &&& 255, bl &&& 255]

/-- Split a byte list into successive chunks of 64 bytes (`cur` accumulates
the current chunk in reverse). -/
def chunksGo : List Nat → List Nat → List (List Nat)
  | [], cur => if cur = [] then [] else [cur.reverse]
  | b :: rest, cur =>
    let cur2 := b :: cur
    if cur2.length = 64 then cur2.reverse :: chunksGo rest [] else chunksGo rest cur2

/-- Split a byte list into 64-byte chunks. -/
def chunks64 (l : List Nat) : List (List Nat) := chunksGo l []

/-- The first 16 words of the message schedule: the chunk's bytes read
big-endian, four at a time. -/
def initWords (chunk : List Nat) : List Nat :=
  (List.range 16).map fun i =>
    (chunk.getD (4*i) 0) <<< 24 ||| (chunk.getD (4*i+1) 0) <<< 16 |||
    (chunk.getD (4*i+2) 0) <<< 8 ||| chunk.getD (4*i+3) 0

/-- Extend the message schedule by `n` further words. -/
def extendLoop : Nat → List Nat → List Nat
  | 0, ws => ws
  | n+1, ws =>
    let m := ws.length
    extendLoop n (ws ++ [w32 (smlS1 (ws.getD (m-2) 0) + ws.getD (m-7) 0 +
                               smlS0 (ws.getD (m-15) 0) + ws.getD (m-16) 0)])

/-- One SHA-256 compression round on the eight working variables. -/
def round1 (ki wi a b c d e f g h : Nat) : List Nat :=
  let t1 := w32 (h + bigS1 e + ((not32 e &&& g) ^^^ (e &&& f)) + ki + wi)
  let t2 := w32 (bigS0 a + ((b &&& c) ^^^ (a &&& b) ^^^ (a &&& c)))
  [w32 (t1 + t2), a, b, c, w32 (d + t1), e, f, g]

/-- Run the 64 compression rounds over paired round constants and schedule
words. -/
def roundsLoop : List (Nat × Nat) → List Nat → List Nat
  | [], st => st
  | p :: rest, st =>
    roundsLoop rest (round1 p.1 p.2 (st.getD 0 0) (st.getD 1 0) (st.getD 2 0) (st.getD 3 0)
                       (st.getD 4 0) (st.getD 5 0) (st.getD 6 0) (st.getD 7 0))

/-- Process one 64-byte chunk: extend the schedule, run the rounds, add the
result into the running state. -/
def processChunk (st chunk : List Nat) : List Nat :=
  let ws := extendLoop 48 (initWords chunk)
  let st2 := roundsLoop (kConsts.zip ws) st
  List.zipWith (fun x y => w32 (x + y)) st st2

/-- SHA-256 of a byte message, as eight 32-bit words. -/
def sha256words (msg : List Nat) : List Nat :=
  (chunks64 (padMsg msg)).foldl processChunk hInit

/-- Lowercase hexadecimal digit for `n < 16`. -/
def hexDigit (n : Nat) : Char := if n < 10 then Char.ofNat (48 + n) else Char.ofNat (87 + n)

/-- The eight lowercase hex characters of a 32-bit word, most significant
nibble first. -/
def hexWord (w : Nat) : List Char :=
  [hexDigit ((w >>> 28) &&& 15), hexDigit ((w >>> 24) &&& 15), hexDigit ((w >>> 20) &&& 15),
   hexDigit ((w >>> 16) &&& 15), hexDigit ((w >>> 12) &&& 15), hexDigit ((w >>> 8) &&& 15),
   hexDigit ((w >>> 4) &&& 15), hexDigit (w &&& 15)]

/-- `hashlib.sha256(msg).hexdigest()`: the 64-character lowercase hex
rendering of the SHA-256 digest. -/
def sha256hex (msg : List Nat) : String := ⟨(sha256words msg).flatMap hexWord⟩

/-- UTF-8 encoding of one character (Python `str.encode()`). -/
def utf8Bytes (c : Char) : List Nat :=
  let n := c.toNat
  if n < 0x80 then [n]
  else if n < 0x800 then [0xC0 ||| (n >>> 6), 0x80 ||| (n &&& 0x3F)]
  else if n < 0x10000 then
    [0xE0 ||| (n >>> 12), 0x80 ||| ((n >>> 6) &&& 0x3F), 0x80 ||| (n &&& 0x3F)]
  else
    [0xF0 ||| (n >>> 18), 0x80 ||| ((n >>> 12) &&& 0x3F), 0x80 ||| ((n >>> 6) &&& 0x3F),
     0x80 ||| (n &&& 0x3F)]

/-- UTF-8 encoding of a string (Python `str.encode()`). -/
def strBytes (s : String) : List Nat := s.data.flatMap utf8Bytes

/-! ### Proof of work (`Blockchain.valid_proof`, `Blockchain.proof_of_work`) -/

namespace Blockchain

/-- `Blockchain.valid_proof(last_proof, proof)`: the SHA-256 hex digest of
the decimal concatenation `f-string of last_proof then proof` (encoded) must
start with four `'0'` characters (`guess_hash[:4] == "0000"`, a slice of
the first four characters). -/
def valid_proof (last_proof proof : Int) : Bool :=
  let guess := toString last_proof ++ toString proof
  let guess_hash := sha256hex (strBytes guess)
  guess_hash.data.take 4 == "0000".data

/-- The `while not valid_proof: proof += 1` loop of
`Blockchain.proof_of_work`, with explicit fuel standing for the number of
remaining iterations (the Python loop is unbounded). -/
def powLoop (last_proof : Int) : Nat → Nat → Option Nat
  | 0, _ => none
  | fuel+1, proof =>
    if valid_proof last_proof proof then some proof else powLoop last_proof fuel (proof + 1)

/-- `Blockchain.proof_of_work(last_proof)`: brute-force search starting at
candidate 0. -/
def proof_of_work (last_proof : Int) (fuel : Nat) : Option Nat :=
  powLoop last_proof fuel 0

end Blockchain

/-! ### Data model

`Entry` is one record of the pending buffer / of a block's `'data'` list;
`Block` is one chain element (the Python block dictionary); `Blockchain`
is the class state: the `chain` list and the `current_data` buffer. -/

/-- One ledger entry, as appended by `new_entry`: the dictionary
with keys `owner`, `stamp`, `year`. -/
structure Entry where
  owner : String
  stamp : String
  year : Int
deriving DecidableEq, Repr

/-- One block dictionary, with the five keys written by `new_block`.
`timestamp` is the abstract wall-clock tick (see the module comment). -/
structure Block where
  index : Nat
  timestamp : Nat
  data : List Entry
  proof : Int
  previous_hash : String
deriving DecidableEq, Repr

/-- The `Blockchain` instance state: `self.chain` and `self.current_data`. -/
structure Blockchain where
  chain : List Block
  current_data : List Entry
deriving DecidableEq, Repr

/-! ### Canonical serialization (`json.dumps(block, sort_keys=True)`)

`json.dumps` with default separators emits `", "` between items and
`": "` between a key and its value; `sort_keys=True` emits each
dictionary's items in lexicographically sorted key order; strings are
escaped with `ensure_ascii=True` (every character outside `0x20..0x7e`
becomes a `\uXXXX` escape, lowercase hex, surrogate pairs above
`0xffff`). -/

/-- Four lowercase hex characters of `n < 0x10000`. -/
def hex4 (n : Nat) : String :=
  ⟨[hexDigit ((n >>> 12) &&& 15), hexDigit ((n >>> 8) &&& 15),
    hexDigit ((n >>> 4) &&& 15), hexDigit (n &&& 15)]⟩

/-- JSON escape of one character, per `json.dumps` with `ensure_ascii=True`. -/
def escChar (c : Char) : String :=
  if c = Char.ofNat 92 then "\\\\"
  else if c = Char.ofNat 34 then "\\\""
  else if c = Char.ofNat 8 then "\\b"
  else if c = Char.ofNat 9 then "\\t"
  else if c = Char.ofNat 10 then "\\n"
  else if c = Char.ofNat 12 then "\\f"
  else if c = Char.ofNat 13 then "\\r"
  else if 0x20 ≤ c.toNat ∧ c.toNat ≤ 0x7e then String.singleton c
  else if c.toNat < 0x10000 then "\\u" ++ hex4 c.toNat
  else
    let n := c.toNat - 0x10000
    "\\u" ++ hex4 (0xd800 + (n >>> 10)) ++ "\\u" ++ hex4 (0xdc00 + (n &&& 0x3ff))

/-- JSON rendering of a string: double quotes around the escaped characters. -/
def jsonStr (s : String) : String := "\"" ++ String.join (s.data.map escChar) ++ "\""

/-- JSON rendering of one entry dictionary.  Its keys in sorted order are
`owner`, `stamp`, `year` (which coincides with the construction order in
`new_entry`). -/
def jsonEntry (e : Entry) : String :=
  "\x7b" ++ jsonStr "owner" ++ ": " ++ jsonStr e.owner ++ ", " ++
    jsonStr "stamp" ++ ": " ++ jsonStr e.stamp ++ ", " ++
    jsonStr "year" ++ ": " ++ toString e.year ++ "\x7d"

/-- JSON rendering of a list from the renderings of its items. -/
def jsonList (items : List String) : String :=
  "[" ++ String.intercalate ", " items ++ "]"

/-- The value of one top-level field of the block dictionary. -/
inductive BVal where
  | vint : Int → BVal
  | vnat : Nat → BVal
  | vstr : String → BVal
  | ventries : List Entry → BVal
deriving DecidableEq, Repr

/-- JSON rendering of one top-level block-field value. -/
def dumpBVal : BVal → String
  | .vint n => toString n
  | .vnat t => toString t
  | .vstr s => jsonStr s
  | .ventries l => jsonList (l.map jsonEntry)

/-- Key order on dictionary items (Python's `sort_keys=True` sorts by the
string key). -/
def keyLe (a b : String × BVal) : Prop := a.1 ≤ b.1

instance : DecidableRel keyLe := fun a b => inferInstanceAs (Decidable (a.1 ≤ b.1))

instance : IsTotal (String × BVal) keyLe := ⟨fun a b => le_total a.1 b.1⟩

instance : IsTrans (String × BVal) keyLe := ⟨fun _ _ _ h₁ h₂ => le_trans h₁ h₂⟩

/-- Sort a dictionary's items by key (`sort_keys=True`). -/
def sortKeys (kvs : List (String × BVal)) : List (String × BVal) :=
  List.insertionSort keyLe kvs

/-- JSON rendering of a dictionary with sorted keys and the default
separators. -/
def dumpObj (kvs : List (String × BVal)) : String :=
  "\x7b" ++
    String.intercalate ", " ((sortKeys kvs).map fun kv => jsonStr kv.1 ++ ": " ++ dumpBVal kv.2) ++
  "\x7d"

namespace Blockchain

/-- The block dictionary's items, in the construction order of
`new_block`. -/
def blockFields (b : Block) : List (String × BVal) :=
  [("index", .vnat b.index), ("timestamp", .vnat b.timestamp), ("data", .ventries b.data),
   ("proof", .vint b.proof), ("previous_hash", .vstr b.previous_hash)]

/-- SHA-256 hex digest of the canonical serialization of a block-shaped
dictionary (arbitrary item order, as a Python dict literal could supply). -/
def hashDict (kvs : List (String × BVal)) : String :=
  sha256hex (strBytes (dumpObj kvs))

/-- `Blockchain.hash(block)`:
`hashlib.sha256(json.dumps(block, sort_keys=True).encode()).hexdigest()`. -/
def hash (b : Block) : String := hashDict (blockFields b)

/-! ### Operations -/

/-- `self.last_block`: `self.chain[-1]`, `none` on an empty chain (where
Python would raise `IndexError`). -/
def last_block (self : Blockchain) : Option Block := self.chain.getLast?

/-- `Blockchain.new_block(proof, previous_hash=None)` at tick `t`:
build the block dictionary (`index = len(chain)+1`, `timestamp = time()`,
`data = current_data`, the given `proof`, and `previous_hash or
hash(chain[-1])` — Python's `or` falls through on `None` and on the empty
string, both falsy), clear the buffer, append the block, return it.
`none` models the `IndexError` of `chain[-1]` on an empty chain when the
fallback hash is needed. -/
def new_block (self : Blockchain) (proof : Int) (previous_hash : Option String) (t : Nat) :
    Option (Block × Blockchain) :=
  let ph : Option String :=
    match previous_hash with
    | some s => if s = "" then none else some s
    | none => none
  match ph with
  | some s =>
    let b : Block := ⟨self.chain.length + 1, t, self.current_data, proof, s⟩
    some (b, ⟨self.chain ++ [b], []⟩)
  | none =>
    match self.chain.getLast? with
    | some lb =>
      let b : Block := ⟨self.chain.length + 1, t, self.current_data, proof, hash lb⟩
      some (b, ⟨self.chain ++ [b], []⟩)
    | none => none

/-- `Blockchain.new_entry(owner, stamp, year)`: append the entry dictionary
to `current_data` and return `last_block['index'] + 1`.  `none` models the
`IndexError` on an empty chain (unreachable after initialization; the
buffer append that Python performs before raising is dropped with it). -/
def new_entry (self : Blockchain) (owner stamp : String) (year : Int) :
    Option (Nat × Blockchain) :=
  match self.chain.getLast? with
  | some lb => some (lb.index + 1, ⟨self.chain, self.current_data ++ [⟨owner, stamp, year⟩]⟩)
  | none => none

/-- `Blockchain.__init__()` at tick `t`: empty chain and buffer, then
`new_block(previous_hash='1', proof=100)`.  That call always succeeds
(`'1'` is truthy, so `chain[-1]` is never read); the `none` branch is
dead code kept only to destructure the `Option`. -/
def init (t : Nat) : Blockchain :=
  match (Blockchain.mk [] []).new_block 100 (some "1") t with
  | some (_, s) => s
  | none => Blockchain.mk [] []

end Blockchain

/-! ### Reachable ledger states

A state is reachable when it arises from a fresh `Blockchain()` by a
finite sequence of `new_entry` calls and mining steps.  A mining step
(route `/mine`) reads `last_proof = last_block['proof']`, obtains some
`proof` accepted by `valid_proof` (the code obtains the least one via
`proof_of_work`; only acceptance matters for the invariants, and every
value `proof_of_work` can return is accepted — see
`Blockchain.proof_of_work_valid` below), then calls `new_block(proof)`
with `previous_hash` defaulted. -/

inductive Reachable : Blockchain → Prop
  | init (t : Nat) : Reachable (Blockchain.init t)
  | addEntry (s : Blockchain) (o st : String) (y : Int) (i : Nat) (s' : Blockchain) :
      Reachable s → s.new_entry o st y = some (i, s') → Reachable s'
  | mine (s : Blockchain) (lb : Block) (p : Int) (t : Nat) (b : Block) (s' : Blockchain) :
      Reachable s → s.last_block = some lb → Blockchain.valid_proof lb.proof p = true →
      s.new_block p none t = some (b, s') → Reachable s'

/-! ### The `/transactions/new` route handler -/

/-- The JSON body of a `POST /transactions/new`, restricted to the three
keys the handler reads; a `none` field models an absent key. -/
structure TxRequest where
  owner : Option String
  stamp : Option String
  year : Option Int
deriving DecidableEq, Repr

/-- The `new_transaction` route handler: if any of `owner`, `stamp`,
`year` is absent, respond `('Brakujące wartości', 400)` without touching
the ledger; otherwise call `new_entry` and respond 201 with the hinted
block index in the message.  The result pairs `(body, status)` with the
ledger state after the call. -/
def new_transaction (s : Blockchain) (values : TxRequest) :
    Option ((String × Nat) × Blockchain) :=
  match values.owner, values.stamp, values.year with
  | some o, some st, some y =>
    (s.new_entry o st y).map fun r =>
      (("Transakcja zostanie dodana do Bloku " ++ toString r.1, 201), r.2)
  | _, _, _ => some (("Brakujące wartości", 400), s)

/-! ### Helper lemmas: digest shape -/

theorem roundsLoop_length : ∀ (l : List (Nat × Nat)) (st : List Nat),
    st.length = 8 → (roundsLoop l st).length = 8 := by
  intro l
  induction l with
  | nil => intro st h; simpa [roundsLoop] using h
  | cons p rest ih => intro st h; exact ih _ rfl

theorem processChunk_length (st c : List Nat) (h : st.length = 8) :
    (processChunk st c).length = 8 := by
  simp [processChunk, List.length_zipWith, h, roundsLoop_length _ _ h]

theorem sha256words_length (msg : List Nat) : (sha256words msg).length = 8 := by
  unfold sha256words
  generalize chunks64 (padMsg msg) = cs
  have : ∀ (cs : List (List Nat)) (st : List Nat), st.length = 8 →
      (cs.foldl processChunk st).length = 8 := by
    intro cs
    induction cs with
    | nil => intro st h; simpa using h
    | cons c rest ih => intro st h; exact ih _ (processChunk_length _ _ h)
  exact this cs hInit rfl

theorem flatMap_hexWord_length (ws : List Nat) :
    (ws.flatMap hexWord).length = 8 * ws.length := by
  induction ws with
  | nil => simp
  | cons w rest ih =>
    simp only [List.flatMap_cons, List.length_append, ih, List.length_cons]
    have : (hexWord w).length = 8 := rfl
    omega

theorem sha256hex_length (msg : List Nat) : (sha256hex msg).data.length = 64 := by
  show ((sha256words msg).flatMap hexWord).length = 64
  rw [flatMap_hexWord_length, sha256words_length]

/-- A list of at least four characters starts with four `'0'` characters
iff each of its first four positions holds `'0'`. -/
theorem take_four_zeros (l : List Char) (hl : 4 ≤ l.length) :
    (l.take 4 = "0000".data ↔ ∀ i : Nat, i < 4 → l.getD i 'x' = '0') := by
  match l, hl with
  | c0 :: c1 :: c2 :: c3 :: rest, _ =>
    show ([c0, c1, c2, c3] = ['0', '0', '0', '0'] ↔ _)
    constructor
    · intro h i hi
      simp only [List.cons.injEq] at h
      obtain ⟨h0, h1, h2, h3, -⟩ := h
      interval_cases i <;> simp [List.getD, h0, h1, h2, h3]
    · intro h
      have h0 := h 0 (by omega)
      have h1 := h 1 (by omega)
      have h2 := h 2 (by omega)
      have h3 := h 3 (by omega)
      simp [List.getD] at h0 h1 h2 h3
      simp [h0, h1, h2, h3]

/-! ### Helper lemmas: the proof-of-work loop -/

namespace Blockchain

theorem powLoop_sound (last_proof : Int) :
    ∀ (fuel start r : Nat), powLoop last_proof fuel start = some r →
      valid_proof last_proof r = true ∧ start ≤ r ∧
        ∀ q : Nat, start ≤ q → q < r → valid_proof last_proof q = false := by
  intro fuel
  induction fuel with
  | zero => intro start r h; simp [powLoop] at h
  | succ n ih =>
    intro start r h
    rw [powLoop] at h
    by_cases hv : valid_proof last_proof start = true
    · rw [if_pos hv] at h
      obtain rfl : start = r := by simpa using h
      exact ⟨hv, le_refl _, fun q hq hq' => absurd hq' (by omega)⟩
    · rw [if_neg hv] at h
      obtain ⟨h1, h2, h3⟩ := ih (start + 1) r h
      refine ⟨h1, by omega, fun q hq hq' => ?_⟩
      rcases Nat.eq_or_lt_of_le hq with rfl | hlt
      · exact Bool.not_eq_true _ ▸ eq_false_of_ne_true hv
      · exact h3 q hlt hq'

theorem powLoop_isSome (last_proof : Int) :
    ∀ (fuel start p : Nat), valid_proof last_proof (p : Int) = true →
      start ≤ p → p < start + fuel → ∃ r, powLoop last_proof fuel start = some r := by
  intro fuel
  induction fuel with
  | zero => intro start p _ _ h; omega
  | succ n ih =>
    intro start p hp h1 h2
    rw [powLoop]
    by_cases hv : valid_proof last_proof start = true
    · exact ⟨start, by rw [if_pos hv]⟩
    · rw [if_neg hv]
      have hne : start ≠ p := fun he => hv (he ▸ hp)
      exact ih (start + 1) p hp (by omega) (by omega)

/-- Every value `proof_of_work` can return is accepted by `valid_proof`. -/
theorem proof_of_work_valid (last_proof : Int) (fuel p : Nat)
    (h : proof_of_work last_proof fuel = some p) : valid_proof last_proof (p : Int) = true :=
  (powLoop_sound last_proof fuel 0 p h).1

end Blockchain

/-! ### Helper lemmas: sorted-key serialization is order-independent -/

/-- Strict key order on dictionary items. -/
def keyLt (a b : String × BVal) : Prop := a.1 < b.1

theorem eq_of_perm_of_keySorted :
    ∀ {l₁ l₂ : List (String × BVal)}, l₁.Perm l₂ →
      l₁.Pairwise keyLt → l₂.Pairwise keyLt → l₁ = l₂ := by
  intro l₁
  induction l₁ with
  | nil => intro l₂ hp _ _; exact (hp.nil_eq).symm ▸ rfl
  | cons a t ih =>
    intro l₂ hp h₁ h₂
    match l₂ with
    | [] => exact absurd hp.symm (by simp)
    | b :: t₂ =>
      have hab : a = b := by
        have ha : a ∈ b :: t₂ := hp.mem_iff.mp (List.mem_cons_self a t)
        have hb : b ∈ a :: t := hp.symm.mem_iff.mp (List.mem_cons_self b t₂)
        rcases List.mem_cons.mp ha with h | ha'
        · exact h
        · rcases List.mem_cons.mp hb with h | hb'
          · exact h.symm
          · have hba : b.1 < a.1 := List.rel_of_pairwise_cons h₂ ha'
            have hab' : a.1 < b.1 := List.rel_of_pairwise_cons h₁ hb'
            exact absurd (hab'.trans hba) (lt_irrefl _)
      subst hab
      have ht : t.Perm t₂ := hp.cons_inv
      rw [ih ht (List.Pairwise.sublist (List.sublist_cons_self a t) h₁)
            (List.Pairwise.sublist (List.sublist_cons_self a t₂) h₂)]

theorem pairwise_keyLt_of_sorted {l : List (String × BVal)}
    (hs : l.Sorted keyLe) (hn : (l.map Prod.fst).Nodup) : l.Pairwise keyLt := by
  have hn' : l.Pairwise (fun a b => a.1 ≠ b.1) := by
    rw [List.Nodup, List.pairwise_map] at hn
    exact hn
  exact (hs.and hn').imp fun h => lt_of_le_of_ne h.1 h.2

theorem sortKeys_eq_of_perm {kvs₁ kvs₂ : List (String × BVal)}
    (hp : kvs₁.Perm kvs₂) (hn : (kvs₂.map Prod.fst).Nodup) :
    sortKeys kvs₁ = sortKeys kvs₂ := by
  have p₁ : (sortKeys kvs₁).Perm kvs₁ := List.perm_insertionSort keyLe kvs₁
  have p₂ : (sortKeys kvs₂).Perm kvs₂ := List.perm_insertionSort keyLe kvs₂
  have hp' : (sortKeys kvs₁).Perm (sortKeys kvs₂) := (p₁.trans hp).trans p₂.symm
  have hs₁ : (sortKeys kvs₁).Sorted keyLe := List.sorted_insertionSort keyLe kvs₁
  have hs₂ : (sortKeys kvs₂).Sorted keyLe := List.sorted_insertionSort keyLe kvs₂
  have hn₂ : ((sortKeys kvs₂).map Prod.fst).Nodup := ((p₂.map Prod.fst).nodup_iff).mpr hn
  have hn₁ : ((sortKeys kvs₁).map Prod.fst).Nodup := ((hp'.map Prod.fst).nodup_iff).mpr hn₂
  exact eq_of_perm_of_keySorted hp' (pairwise_keyLt_of_sorted hs₁ hn₁)
    (pairwise_keyLt_of_sorted hs₂ hn₂)

/-! ### Helper lemmas: operations and reachable states -/

namespace Blockchain

theorem init_eq (t : Nat) : init t = ⟨[⟨1, t, [], 100, "1"⟩], []⟩ := rfl

theorem new_block_default {s : Blockchain} {lb : Block} (p : Int) (t : Nat)
    (h : s.chain.getLast? = some lb) :
    s.new_block p none t =
      some (⟨s.chain.length + 1, t, s.current_data, p, hash lb⟩,
            ⟨s.chain ++ [⟨s.chain.length + 1, t, s.current_data, p, hash lb⟩], []⟩) := by
  simp [new_block, h]

theorem new_block_none_inv {s s' : Blockchain} {b : Block} {p : Int} {t : Nat}
    (h : s.new_block p none t = some (b, s')) :
    ∃ lb, s.chain.getLast? = some lb ∧
      b = ⟨s.chain.length + 1, t, s.current_data, p, hash lb⟩ ∧
      s' = ⟨s.chain ++ [b], []⟩ := by
  rw [new_block] at h
  match hl : s.chain.getLast? with
  | some lb =>
    rw [hl] at h
    simp only [Option.some.injEq, Prod.mk.injEq] at h
    exact ⟨lb, rfl, h.1.symm, by rw [← h.1, ← h.2]⟩
  | none => rw [hl] at h; simp at h

theorem new_entry_inv {s s' : Blockchain} {o st : String} {y : Int} {i : Nat}
    (h : s.new_entry o st y = some (i, s')) :
    ∃ lb, s.chain.getLast? = some lb ∧ i = lb.index + 1 ∧
      s' = ⟨s.chain, s.current_data ++ [⟨o, st, y⟩]⟩ := by
  rw [new_entry] at h
  match hl : s.chain.getLast? with
  | some lb =>
    rw [hl] at h
    simp only [Option.some.injEq, Prod.mk.injEq] at h
    exact ⟨lb, rfl, h.1.symm, h.2.symm⟩
  | none => rw [hl] at h; simp at h

end Blockchain

theorem reachable_chain_ne_nil {s : Blockchain} (hs : Reachable s) : s.chain ≠ [] := by
  induction hs with
  | init t => rw [Blockchain.init_eq]; simp
  | addEntry s o st y i s' _ h ih =>
    obtain ⟨lb, _, _, rfl⟩ := Blockchain.new_entry_inv h
    exact ih
  | mine s lb p t b s' _ _ _ h ih =>
    obtain ⟨lb', _, _, rfl⟩ := Blockchain.new_block_none_inv h
    simp

theorem reachable_index {s : Blockchain} (hs : Reachable s) :
    ∀ (i : Nat) (b : Block), s.chain[i]? = some b → b.index = i + 1 := by
  induction hs with
  | init t =>
    intro i b h
    rw [Blockchain.init_eq] at h
    match i with
    | 0 => simp at h; rw [← h]
    | i+1 => simp at h
  | addEntry s o st y j s' _ h ih =>
    obtain ⟨lb, _, _, rfl⟩ := Blockchain.new_entry_inv h
    exact ih
  | mine s lb p t b s' _ _ _ h ih =>
    intro i b₀ h₀
    obtain ⟨lb', _, rfl, rfl⟩ := Blockchain.new_block_none_inv h
    simp only at h₀
    rcases Nat.lt_trichotomy i s.chain.length with hlt | heq | hgt
    · rw [List.getElem?_append_left hlt] at h₀
      exact ih i b₀ h₀
    · subst heq
      rw [List.getElem?_concat_length] at h₀
      obtain rfl : _ = b₀ := by simpa using h₀
      rfl
    · rw [List.getElem?_eq_none (by simp; omega)] at h₀
      exact absurd h₀ (by simp)

theorem reachable_getLast_index {s : Blockchain} (hs : Reachable s) {lb : Block}
    (h : s.chain.getLast? = some lb) : lb.index = s.chain.length := by
  have hne : s.chain ≠ [] := reachable_chain_ne_nil hs
  have hlen : 0 < s.chain.length := List.length_pos.mpr hne
  rw [List.getLast?_eq_getElem?] at h
  have := reachable_index hs (s.chain.length - 1) lb h
  omega

/-! ### Concrete specimens used by the witnesses -/

/-- The genesis block of `Blockchain.init 0`. -/
def gBlock : Block := ⟨1, 0, [], 100, "1"⟩

/-- The block sealed by mining once on a fresh ledger at tick 1 with the
(least) proof 35293 for `last_proof = 100`. -/
def bBlock : Block := ⟨2, 1, [], 35293, Blockchain.hash gBlock⟩

/-- The two-block ledger state after one mining step on a fresh ledger. -/
def s2 : Blockchain := ⟨[gBlock, bBlock], []⟩

theorem reach_s2 : Reachable s2 := by
  refine Reachable.mine (Blockchain.init 0) gBlock 35293 1 bBlock s2
    (Reachable.init 0) rfl ?_ rfl
  decide

/-! ### The claims -/

/-- C1. Chain integrity: in every ledger state reachable from a fresh
`Blockchain()` by `new_entry` and mining steps, every block after the
first has as `previous_hash` the hash of the block one position earlier in
the chain. -/
theorem chain_integrity {s : Blockchain} (hs : Reachable s) :
    ∀ (i : Nat) (b₀ b₁ : Block), s.chain[i]? = some b₀ → s.chain[i+1]? = some b₁ →
      b₁.previous_hash = Blockchain.hash b₀ := by
  induction hs with
  | init t =>
    intro i b₀ b₁ h₀ h₁
    rw [Blockchain.init_eq] at h₁
    simp at h₁
  | addEntry s o st y j s' _ h ih =>
    obtain ⟨lb, _, _, rfl⟩ := Blockchain.new_entry_inv h
    exact ih
  | mine s lb p t b s' _ hlast hv h ih =>
    intro i b₀ b₁ h₀ h₁
    obtain ⟨lb', hl', rfl, rfl⟩ := Blockchain.new_block_none_inv h
    simp only at h₀ h₁
    rcases Nat.lt_trichotomy (i+1) s.chain.length with hlt | heq | hgt
    · rw [List.getElem?_append_left hlt] at h₁
      rw [List.getElem?_append_left (by omega)] at h₀
      exact ih i b₀ b₁ h₀ h₁
    · rw [heq, List.getElem?_concat_length] at h₁
      rw [List.getElem?_append_left (by omega)] at h₀
      rw [List.getLast?_eq_getElem?] at hl'
      have hi : i = s.chain.length - 1 := by omega
      rw [hi] at h₀
      obtain rfl : lb' = b₀ := by
        have := hl'.symm.trans h₀
        simpa using this
      obtain rfl : _ = b₁ := by simpa using h₁
      rfl
    · rw [List.getElem?_eq_none (by simp; omega)] at h₁
      exact absurd h₁ (by simp)

/-- Witness for C1: the concrete two-block state reached by mining once on
a fresh ledger satisfies the chain-integrity conclusion at position 0/1. -/
theorem chain_integrity_witness :
    Reachable s2 ∧ s2.chain[0]? = some gBlock ∧ s2.chain[1]? = some bBlock ∧
      bBlock.previous_hash = Blockchain.hash gBlock :=
  ⟨reach_s2, rfl, rfl, chain_integrity reach_s2 0 gBlock bBlock rfl rfl⟩

/-- C2. Proof validity: in every reachable ledger state, every block after
the first carries a proof accepted by `valid_proof` relative to the proof
of the block one position earlier; the genesis block (position 0, index 1)
is subject to no such condition. -/
theorem proof_validity {s : Blockchain} (hs : Reachable s) :
    ∀ (i : Nat) (b₀ b₁ : Block), s.chain[i]? = some b₀ → s.chain[i+1]? = some b₁ →
      Blockchain.valid_proof b₀.proof b₁.proof = true := by
  induction hs with
  | init t =>
    intro i b₀ b₁ h₀ h₁
    rw [Blockchain.init_eq] at h₁
    simp at h₁
  | addEntry s o st y j s' _ h ih =>
    obtain ⟨lb, _, _, rfl⟩ := Blockchain.new_entry_inv h
    exact ih
  | mine s lb p t b s' _ hlast hv h ih =>
    intro i b₀ b₁ h₀ h₁
    obtain ⟨lb', hl', rfl, rfl⟩ := Blockchain.new_block_none_inv h
    obtain rfl : lb = lb' := by
      have : s.chain.getLast? = some lb := hlast
      have := this.symm.trans hl'
      simpa using this
    simp only at h₀ h₁
    rcases Nat.lt_trichotomy (i+1) s.chain.length with hlt | heq | hgt
    · rw [List.getElem?_append_left hlt] at h₁
      rw [List.getElem?_append_left (by omega)] at h₀
      exact ih i b₀ b₁ h₀ h₁
    · rw [heq, List.getElem?_concat_length] at h₁
      rw [List.getElem?_append_left (by omega)] at h₀
      rw [List.getLast?_eq_getElem?] at hl'
      have hi : i = s.chain.length - 1 := by omega
      rw [hi] at h₀
      obtain rfl : lb = b₀ := by
        have := hl'.symm.trans h₀
        simpa using this
      obtain rfl : _ = b₁ := by simpa using h₁
      exact hv
    · rw [List.getElem?_eq_none (by simp; omega)] at h₁
      exact absurd h₁ (by simp)

/-- Witness for C2: in the concrete two-block state, the second block's
proof is accepted by `valid_proof` against the genesis proof. -/
theorem proof_validity_witness :
    Reachable s2 ∧ Blockchain.valid_proof gBlock.proof bBlock.proof = true :=
  ⟨reach_s2, proof_validity reach_s2 0 gBlock bBlock rfl rfl⟩

/-- C3. Definition of the proof-of-work predicate: `valid_proof` holds iff
each of the first 4 characters of the 64-character lowercase SHA-256 hex
digest of the concatenated decimal texts (no separator) is `'0'`. -/
theorem valid_proof_spec (last_proof proof : Int) :
    (Blockchain.valid_proof last_proof proof = true ↔
      ∀ i : Nat, i < 4 →
        (sha256hex (strBytes (toString last_proof ++ toString proof))).data.getD i 'x' = '0') ∧
    (sha256hex (strBytes (toString last_proof ++ toString proof))).data.length = 64 := by
  have hlen := sha256hex_length (strBytes (toString last_proof ++ toString proof))
  refine ⟨?_, hlen⟩
  show ((sha256hex (strBytes (toString last_proof ++ toString proof))).data.take 4
      == "0000".data) = true ↔ _
  rw [beq_iff_eq]
  exact take_four_zeros _ (by omega)

/-- C4. `proof_of_work` returns the least accepted candidate: whenever some
candidate `p` is accepted (and the fuel covers it, standing for the
termination of the unbounded Python loop), the search succeeds and its
result is accepted while every smaller candidate is rejected. -/
theorem proof_of_work_least (last_proof : Int) (p fuel : Nat)
    (hp : Blockchain.valid_proof last_proof (p : Int) = true) (hfuel : p < fuel) :
    ∃ r : Nat, Blockchain.proof_of_work last_proof fuel = some r ∧
      Blockchain.valid_proof last_proof (r : Int) = true ∧
      ∀ q : Nat, q < r → Blockchain.valid_proof last_proof (q : Int) = false := by
  obtain ⟨r, hr⟩ := Blockchain.powLoop_isSome last_proof fuel 0 p hp (by omega) (by omega)
  obtain ⟨h1, _, h3⟩ := Blockchain.powLoop_sound last_proof fuel 0 r hr
  exact ⟨r, hr, h1, fun q hq => h3 q (by omega) hq⟩

/-- Witness for C4: candidate 0 is already accepted for
`last_proof = 88914`, so the search with fuel 1 succeeds. -/
theorem proof_of_work_least_witness :
    Blockchain.valid_proof 88914 ((0 : Nat) : Int) = true ∧ 0 < 1 ∧
      ∃ r : Nat, Blockchain.proof_of_work 88914 1 = some r ∧
        Blockchain.valid_proof 88914 (r : Int) = true ∧
        ∀ q : Nat, q < r → Blockchain.valid_proof 88914 (q : Int) = false := by
  have h : Blockchain.valid_proof 88914 ((0 : Nat) : Int) = true := by decide
  exact ⟨h, Nat.zero_lt_one, proof_of_work_least 88914 0 1 h Nat.zero_lt_one⟩

/-- C5. Sealing postcondition: `new_block(proof)` with `previous_hash`
defaulted (the call `mine` makes) appends exactly one block whose index is
the pre-call chain length plus 1, whose `data` is exactly the pre-call
pending buffer, and whose `previous_hash` is the hash of the pre-call last
block; afterwards the buffer is empty, and the appended block is the one
returned. -/
theorem new_block_seals (s : Blockchain) (p : Int) (t : Nat) (lb : Block)
    (h : s.chain.getLast? = some lb) :
    s.new_block p none t =
      some (⟨s.chain.length + 1, t, s.current_data, p, Blockchain.hash lb⟩,
            ⟨s.chain ++ [⟨s.chain.length + 1, t, s.current_data, p, Blockchain.hash lb⟩], []⟩) :=
  Blockchain.new_block_default p t h

/-- Witness for C5: sealing on a fresh ledger with proof 7 at tick 5. -/
theorem new_block_seals_witness :
    (Blockchain.init 0).chain.getLast? = some gBlock ∧
      (Blockchain.init 0).new_block 7 none 5 =
        some (⟨2, 5, [], 7, Blockchain.hash gBlock⟩,
              ⟨[gBlock, ⟨2, 5, [], 7, Blockchain.hash gBlock⟩], []⟩) :=
  ⟨rfl, new_block_seals (Blockchain.init 0) 7 5 gBlock rfl⟩

/-- C6. Genesis initialization: a fresh `Blockchain()` (at any tick `t`)
has a chain of exactly one block with index 1, empty entry list, proof
100 and previous hash `'1'`, and an empty pending buffer.  The
construction imposes no `valid_proof` condition on this block. -/
theorem genesis_init (t : Nat) :
    (Blockchain.init t).chain = [⟨1, t, [], 100, "1"⟩] ∧
      (Blockchain.init t).current_data = [] :=
  ⟨rfl, rfl⟩

/-- C7. Entry hint: in a reachable state, `new_entry` appends the entry to
the end of the pending buffer, leaves the chain unchanged, and returns the
last block's index plus 1, which equals the chain length plus 1; and the
immediately following mining step (no other operation intervening) seals
that entry into a block whose index equals the returned hint. -/
theorem new_entry_hint {s : Blockchain} (hs : Reachable s) (o st : String) (y : Int)
    (i : Nat) (s₁ : Blockchain) (h : s.new_entry o st y = some (i, s₁)) :
    s₁.chain = s.chain ∧
    s₁.current_data = s.current_data ++ [⟨o, st, y⟩] ∧
    (∃ lb, s.chain.getLast? = some lb ∧ i = lb.index + 1) ∧
    i = s.chain.length + 1 ∧
    ∀ (p : Int) (t : Nat) (b : Block) (s₂ : Blockchain) (lb₁ : Block),
      s₁.last_block = some lb₁ → Blockchain.valid_proof lb₁.proof p = true →
      s₁.new_block p none t = some (b, s₂) →
      b.index = i ∧ b.data = s.current_data ++ [⟨o, st, y⟩] := by
  obtain ⟨lb, hl, rfl, rfl⟩ := Blockchain.new_entry_inv h
  have hidx : lb.index = s.chain.length := reachable_getLast_index hs hl
  refine ⟨rfl, rfl, ⟨lb, hl, rfl⟩, by omega, ?_⟩
  intro p t b s₂ lb₁ hl₁ hv hb
  obtain ⟨lb₂, hl₂, rfl, rfl⟩ := Blockchain.new_block_none_inv hb
  exact ⟨by show s.chain.length + 1 = lb.index + 1; omega, rfl⟩

/-- The entry of the concrete scenario of the specification. -/
def aEntry : Entry := ⟨"Alice", "Penny Black", 1840⟩

/-- The fresh ledger after buffering that entry. -/
def s1e : Blockchain := ⟨[gBlock], [aEntry]⟩

/-- The block sealing that entry at tick 1 with proof 35293. -/
def bE : Block := ⟨2, 1, [aEntry], 35293, Blockchain.hash gBlock⟩

/-- Witness for C7: on a fresh ledger, buffering the entry returns hint 2
and the following mining step seals it into the block of index 2. -/
theorem new_entry_hint_witness :
    (Blockchain.init 0).new_entry "Alice" "Penny Black" 1840 = some (2, s1e) ∧
      Blockchain.valid_proof gBlock.proof 35293 = true ∧
      s1e.new_block 35293 none 1 = some (bE, ⟨[gBlock, bE], []⟩) ∧
      bE.index = 2 ∧ bE.data = [aEntry] := by
  have hv : Blockchain.valid_proof gBlock.proof 35293 = true := by decide
  have happ := new_entry_hint (Reachable.init 0) "Alice" "Penny Black" 1840 2 s1e rfl
  have hmine := happ.2.2.2.2 35293 1 bE ⟨[gBlock, bE], []⟩ gBlock rfl hv rfl
  exact ⟨rfl, hv, rfl, hmine.1, hmine.2⟩

/-- C8. Hash canonicality: the block hash is a function of the block's
field values alone.  Determinism over repeated calls is definitional here
(the embedding's `hash` is a pure function); the substantive content is
that serializing the block dictionary's items in any construction order
yields the same hash, because `sort_keys=True` orders the items before
hashing. -/
theorem hash_canonical (b : Block) (kvs : List (String × BVal))
    (h : kvs.Perm (Blockchain.blockFields b)) :
    Blockchain.hashDict kvs = Blockchain.hash b := by
  have hn : ((Blockchain.blockFields b).map Prod.fst).Nodup := by
    show (["index", "timestamp", "data", "proof", "previous_hash"] : List String).Nodup
    decide
  have hs : sortKeys kvs = sortKeys (Blockchain.blockFields b) := sortKeys_eq_of_perm h hn
  show sha256hex (strBytes (dumpObj kvs)) = sha256hex (strBytes (dumpObj _))
  rw [dumpObj, dumpObj, hs]

/-- The genesis block's dictionary items in a rotated construction order. -/
def kvsRot : List (String × BVal) :=
  [("timestamp", .vnat 0), ("data", .ventries []), ("proof", .vint 100),
   ("previous_hash", .vstr "1"), ("index", .vnat 1)]

/-- Witness for C8: the rotated item order hashes like the genesis block. -/
theorem hash_canonical_witness :
    kvsRot.Perm (Blockchain.blockFields gBlock) ∧
      Blockchain.hashDict kvsRot = Blockchain.hash gBlock := by
  have hp : kvsRot.Perm (Blockchain.blockFields gBlock) := by decide
  exact ⟨hp, hash_canonical gBlock kvsRot hp⟩

/-- C9. The `/transactions/new` handler: a body missing any of `owner`,
`stamp`, `year` gets status 400 and leaves the ledger (chain and buffer)
exactly unchanged; a body with all three present gets status 201, the
hinted next-block index in the message, and exactly the `new_entry`
effect on the ledger. -/
theorem new_transaction_spec :
    (∀ (s : Blockchain) (v : TxRequest),
      v.owner = none ∨ v.stamp = none ∨ v.year = none →
      new_transaction s v = some (("Brakujące wartości", 400), s)) ∧
    (∀ (s : Blockchain) (o st : String) (y : Int) (lb : Block),
      s.chain.getLast? = some lb →
      new_transaction s ⟨some o, some st, some y⟩ =
        some (("Transakcja zostanie dodana do Bloku " ++ toString (lb.index + 1), 201),
              ⟨s.chain, s.current_data ++ [⟨o, st, y⟩]⟩)) := by
  constructor
  · intro s v hv
    obtain ⟨ow, sp, yr⟩ := v
    rcases ow with _ | o <;> rcases sp with _ | st <;> rcases yr with _ | y
    all_goals try rfl
    rcases hv with h | h | h <;> simp at h
  · intro s o st y lb hl
    simp [new_transaction, Blockchain.new_entry, hl]

/-- Witness for C9: on a fresh ledger, a body missing `owner` is rejected
with 400 and no state change; a complete body is accepted with 201 and
the hint 2 in the message. -/
theorem new_transaction_spec_witness :
    new_transaction (Blockchain.init 0) ⟨none, some "B", some 1⟩ =
        some (("Brakujące wartości", 400), Blockchain.init 0) ∧
      new_transaction (Blockchain.init 0) ⟨some "Alice", some "Penny Black", some 1840⟩ =
        some (("Transakcja zostanie dodana do Bloku " ++ toString (2 : Nat), 201),
              ⟨[gBlock], [aEntry]⟩) :=
  ⟨new_transaction_spec.1 (Blockchain.init 0) ⟨none, some "B", some 1⟩ (Or.inl rfl),
   new_transaction_spec.2 (Blockchain.init 0) "Alice" "Penny Black" 1840 gBlock rfl⟩

/-- C10. The proof-of-work predicate depends only on the concatenated
decimal string: argument pairs with equal concatenations are
indistinguishable. -/
theorem valid_proof_concat (a b c d : Int)
    (ha : 0 ≤ a) (hb : 0 ≤ b) (hc : 0 ≤ c) (hd : 0 ≤ d)
    (h : toString a ++ toString b = toString c ++ toString d) :
    Blockchain.valid_proof a b = Blockchain.valid_proof c d := by
  simp only [Blockchain.valid_proof]
  rw [h]

/-- Witness for C10: the pairs (1, 23) and (12, 3) both concatenate to
`"123"` and get the same verdict. -/
theorem valid_proof_concat_witness :
    ((0 : Int) ≤ 1 ∧ (0 : Int) ≤ 23 ∧ (0 : Int) ≤ 12 ∧ (0 : Int) ≤ 3 ∧
      toString (1 : Int) ++ toString (23 : Int) = toString (12 : Int) ++ toString (3 : Int)) ∧
    Blockchain.valid_proof 1 23 = Blockchain.valid_proof 12 3 := by
  have h : toString (1 : Int) ++ toString (23 : Int) =
      toString (12 : Int) ++ toString (3 : Int) := by decide
  exact ⟨⟨by decide, by decide, by decide, by decide, h⟩,
    valid_proof_concat 1 23 12 3 (by decide) (by decide) (by decide) (by decide) h⟩
